import Mathlib

/-
Verification of the BFFNT font-container tool (src/bffnt.py) against its
natural-language specification.  Each definition below is a shallow
embedding of the corresponding Python function; machine bytes are
modelled as `Nat` values below 256, signed bytes as `Int`, byte buffers
as `List Nat`.  Python's `x & m`, `x | y`, `x >> k`, `x << k` on
non-negative ints are `&&&`, `|||`, `>>>`, `<<<` on `Nat`.
-/

namespace Bffnt

/-- The pixel-format enum `Format` from bffnt.py. -/
inductive Format
  | RGBA8 | RGB8 | RGBA5551 | RGB565 | RGBA4 | LA8 | HILO8
  | L8 | A8 | LA4 | L4 | A4 | ETC1 | ETC1A4
  deriving DecidableEq

/-- `Format.format_size`: bits per pixel (per block for the ETC1 formats). -/
def Format.format_size : Format → Nat
  | .RGBA8 => 32
  | .RGB8 => 24
  | .RGBA5551 => 16
  | .RGB565 => 16
  | .RGBA4 => 16
  | .LA8 => 16
  | .HILO8 => 16
  | .L8 => 8
  | .A8 => 8
  | .LA4 => 8
  | .L4 => 4
  | .A4 => 4
  | .ETC1 => 64
  | .ETC1A4 => 128

/-- An RGBA8 pixel `(red, green, blue, alpha)`, each component a byte. -/
abbrev Pixel := Nat × Nat × Nat × Nat

/-- Read byte `i` of a buffer.  `struct.unpack` in the source requires the
byte to be present; all theorems below use buffers of adequate length, so
the out-of-range default of 0 is never exercised. -/
def byte (data : List Nat) (i : Nat) : Nat := data.getD i 0

/-- `Bffnt._get_pixel_data(format_, data, index)`: decode one pixel of
`data` at pixel index `index` to RGBA8.  The `HILO8` branch is a TODO in
the source and falls through to the zero-initialised channels, as do the
block-compressed ETC1 formats, which never reach this function. -/
def get_pixel_data (format_ : Format) (data : List Nat) (index : Nat) : Pixel :=
  match format_ with
  | .RGBA8 =>
      (byte data (index * 4), byte data (index * 4 + 1),
       byte data (index * 4 + 2), byte data (index * 4 + 3))
  | .RGB8 =>
      (byte data (index * 3), byte data (index * 3 + 1),
       byte data (index * 3 + 2), 255)
  | .RGBA5551 =>
      let b1 := byte data (index * 2)
      let b2 := byte data (index * 2 + 1)
      ((b1 >>> 3) &&& 0x1F,
       (b1 &&& 0x07) ||| ((b2 >>> 6) &&& 0x03),
       (b2 >>> 1) &&& 0x1F,
       (b2 &&& 0x01) * 255)
  | .RGB565 =>
      let b1 := byte data (index * 2)
      let b2 := byte data (index * 2 + 1)
      ((b1 >>> 3) &&& 0x1F,
       (b1 &&& 0x7) ||| ((b2 >>> 5) &&& 0x7),
       b2 &&& 0x1F,
       255)
  | .RGBA4 =>
      let b1 := byte data (index * 2)
      let b2 := byte data (index * 2 + 1)
      (((b1 >>> 4) &&& 0x0F) * 0x11,
       (b2 &&& 0x0F) * 0x11,
       ((b2 >>> 4) &&& 0x0F) * 0x11,
       (b1 &&& 0x0F) * 0x11)
  | .LA8 =>
      let l := byte data (index * 2)
      (l, l, l, byte data (index * 2 + 1))
  | .HILO8 => (0, 0, 0, 0)
  | .L8 =>
      let l := byte data index
      (l, l, l, 255)
  | .A8 => (255, 255, 255, byte data index)
  | .LA4 =>
      let la := byte data index
      let l := ((la >>> 4) &&& 0x0F) * 0x11
      (l, l, l, (la &&& 0x0F) * 0x11)
  | .L4 =>
      let l0 := byte data (index / 2)
      let l1 := if index &&& 1 = 1 then l0 >>> 4 else l0
      let l := l1 &&& 0x0F
      (l * 0x11, l * 0x11, l * 0x11, 255)
  | .A4 =>
      let a0 := byte data (index / 2)
      let a1 := if index &&& 1 = 1 then a0 >>> 4 else a0
      let a := a1 &&& 0x0F
      (255, 255, 255, a * 0x11)
  | .ETC1 => (0, 0, 0, 0)
  | .ETC1A4 => (0, 0, 0, 0)

/-- `Bffnt._get_tglp_pixel_data(bmp, index, format_)`: encode the RGBA8
pixel `bmp[index]` into its on-disk byte fragment.  The luma-bearing
formats compute `int(red*0.2126 + green*0.7152 + blue*0.0722)` with
floating-point arithmetic; that value is supplied by the `luma`
parameter, keeping the rest of the function exact.  `HILO8` and the
ETC1 formats hit `assert_never` in the source and yield the empty
fragment here. -/
def get_tglp_pixel_data (luma : Nat → Nat → Nat → Nat)
    (bmp : List Pixel) (index : Nat) (format_ : Format) : List Nat :=
  let p := bmp.getD index (0, 0, 0, 0)
  let red := p.1
  let green := p.2.1
  let blue := p.2.2.1
  let alpha := p.2.2.2
  match format_ with
  | .RGBA8 => [red, green, blue, alpha]
  | .RGB8 => [red, green, blue]
  | .RGBA5551 =>
      let r5 := (red / 8) &&& 0x1F
      let g5 := (green / 8) &&& 0x1F
      let b5 := (blue / 8) &&& 0x1F
      let a := if alpha > 0 then 1 else 0
      [(r5 <<< 3) ||| (g5 >>> 2),
       ((g5 <<< 6) ||| (b5 <<< 1) ||| a) &&& 0xFF]
  | .RGB565 =>
      let r5 := (red / 8) &&& 0x1F
      let g6 := (green / 4) &&& 0x3F
      let b5 := (blue / 8) &&& 0x1F
      [(r5 <<< 3) ||| (g6 >>> 3),
       ((g6 <<< 5) ||| b5) &&& 0xFF]
  | .RGBA4 =>
      let r4 := (red / 0x11) &&& 0x0F
      let g4 := (green / 0x11) &&& 0x0F
      let b4 := (blue / 0x11) &&& 0x0F
      let a4 := (alpha / 0x11) &&& 0x0F
      [(r4 <<< 4) ||| g4, (b4 <<< 4) ||| a4]
  | .LA8 => [luma red green blue, alpha]
  | .HILO8 => []
  | .L8 => [luma red green blue]
  | .A8 => [alpha]
  | .LA4 =>
      let l := luma red green blue / 0x11
      let a := (alpha / 0x11) &&& 0x0F
      [(l <<< 4) ||| a]
  | .L4 =>
      let l := luma red green blue
      let shift := (index &&& 1) * 4
      [l <<< shift]
  | .A4 =>
      let a := (alpha / 0x11) &&& 0xF
      let shift := (index &&& 1) * 4
      [a <<< shift]
  | .ETC1 => []
  | .ETC1A4 => []

/-- C1: the claimed encode/decode round trip fails for RGBA5551.  The
pixel (255,255,255,255) is exactly representable in RGBA5551 (it is the
expansion of the stored channel values 31,31,31,1), encodes to the bytes
[0xFF, 0xFF], yet decodes to (31, 7, 31, 255): the decoder neither
expands the 5-bit channels back to 8 bits nor reassembles the green bits
that the encoder split across the two bytes. -/
theorem rgba5551_roundtrip_fails :
    get_tglp_pixel_data (fun _ _ _ => 0) [(255, 255, 255, 255)] 0 .RGBA5551
      = [255, 255]
    ∧ get_pixel_data .RGBA5551
        (get_tglp_pixel_data (fun _ _ _ => 0) [(255, 255, 255, 255)] 0 .RGBA5551) 0
      = (31, 7, 31, 255)
    ∧ ((31, 7, 31, 255) : Pixel) ≠ (255, 255, 255, 255) := by
  refine ⟨rfl, rfl, ?_⟩
  decide

/-- C5: for RGB565 the decoder returns the raw 5-bit stored channel
instead of the claimed expansion.  The stored bytes [0xF8, 0x00] hold
the red code word v = 31; the decoder yields red = 31 while the claim
requires the expansion (v <<< 3) ||| (v >>> 2) = 255. -/
theorem rgb565_decode_no_expand :
    get_pixel_data .RGB565 [0xF8, 0x00] 0 = (31, 0, 0, 255)
    ∧ ((31 <<< 3) ||| (31 >>> 2) : Nat) = 255
    ∧ (31 : Nat) ≠ 255 := by
  refine ⟨rfl, by decide, by decide⟩

/-! ETC1 differential-mode base colors (`Bffnt._decompress_etc1`).
The 64-bit color word of a block is modelled as a `Nat`; the bit
offsets are the module-level constants of the source. -/

def ETC_DIFF_RED1_OFFSET : Nat := 59
def ETC_DIFF_GREEN1_OFFSET : Nat := 51
def ETC_DIFF_BLUE_OFFSET : Nat := 43

def ETC_RED2_OFFSET : Nat := 56
def ETC_GREEN2_OFFSET : Nat := 48
def ETC_BLUE2_OFFSET : Nat := 40

/-- `Bffnt._complement(input_, bits)`: two's-complement sign extension of
a `bits`-wide code word. -/
def complement (input_ bits : Nat) : Int :=
  if input_ >>> (bits - 1) = 0 then (input_ : Int)
  else (input_ : Int) - ((1 <<< bits : Nat) : Int)

/-- The 5-bit differential code words of the first sub-block and the
3-bit delta code words of the second, as extracted in the source. -/
def etcDiffR1 (pixels : Nat) : Nat := (pixels >>> ETC_DIFF_RED1_OFFSET) &&& 0x1F
def etcDiffG1 (pixels : Nat) : Nat := (pixels >>> ETC_DIFF_GREEN1_OFFSET) &&& 0x1F
def etcDiffB1 (pixels : Nat) : Nat := (pixels >>> ETC_DIFF_BLUE_OFFSET) &&& 0x1F
def etcDiffDR (pixels : Nat) : Nat := (pixels >>> ETC_RED2_OFFSET) &&& 0x07
def etcDiffDG (pixels : Nat) : Nat := (pixels >>> ETC_GREEN2_OFFSET) &&& 0x07
def etcDiffDB (pixels : Nat) : Nat := (pixels >>> ETC_BLUE2_OFFSET) &&& 0x07

/-- `(r << 3) | ((r >> 2) & 0x07)` from the source: extend a 5-bit value
to 8 bits by duplicating the 3 most significant bits. -/
def expand5 (r : Nat) : Nat := (r <<< 3) ||| ((r >>> 2) &&& 0x07)

/-- The same expression evaluated on a Python `int` that may be negative
(the second sub-block sum `r + complement(...)`).  Python's `r << 3` is
multiplication by 8, `r >> 2` is floor division by 4, `& 0x07` is the
non-negative remainder mod 8, and since `r * 8` has zero low bits the
final `|` is addition. -/
def expand5I (r : Int) : Int := r * 8 + (Int.fdiv r 4).emod 8

/-- First sub-block base color in differential mode, per the source:
each 5-bit code word expanded to 8 bits. -/
def etcDiffColor1 (pixels : Nat) : Nat × Nat × Nat :=
  (expand5 (etcDiffR1 pixels), expand5 (etcDiffG1 pixels), expand5 (etcDiffB1 pixels))

/-- Second sub-block base color in differential mode, per the source:
the 5-bit code word plus the sign-extended 3-bit delta, then expanded. -/
def etcDiffColor2 (pixels : Nat) : Int × Int × Int :=
  (expand5I ((etcDiffR1 pixels : Int) + complement (etcDiffDR pixels) 3),
   expand5I ((etcDiffG1 pixels : Int) + complement (etcDiffDG pixels) 3),
   expand5I ((etcDiffB1 pixels : Int) + complement (etcDiffDB pixels) 3))

/-- Expansion as the claim words it: replicate the top 3 bits of a 5-bit
value `v` into the low 3 bits, i.e. `8 * v + v / 4`. -/
def specExpand5 (v : Nat) : Nat := 8 * v + v / 4

/-- Sign extension as the claim words it: a 3-bit value with the top bit
set maps to `value - 8`. -/
def specSignExt3 (d : Nat) : Int := if d < 4 then (d : Int) else (d : Int) - 8

theorem expand5_eq_specExpand5 : ∀ r : Nat, r < 32 → expand5 r = specExpand5 r := by
  decide

theorem complement3_eq_specSignExt3 : ∀ d : Nat, d < 8 → complement d 3 = specSignExt3 d := by
  decide

theorem expand5I_eq_specExpand5 :
    ∀ v : Nat, v < 32 → expand5I (v : Int) = (specExpand5 v : Int) := by
  decide

/-- C7: in ETC1 differential mode the first sub-block base channels are
the 5-bit code words with their top 3 bits replicated into the low 3
bits, and the second sub-block base channels are the code words plus the
sign-extended two's-complement 3-bit deltas (top bit set means value
minus 8), the sums expanded the same way whenever they stay in the
5-bit range. -/
theorem etc1_differential_bases (pixels : Nat) :
    etcDiffColor1 pixels
      = (specExpand5 (etcDiffR1 pixels), specExpand5 (etcDiffG1 pixels),
         specExpand5 (etcDiffB1 pixels))
    ∧ (etcDiffColor2 pixels).1
        = expand5I ((etcDiffR1 pixels : Int) + specSignExt3 (etcDiffDR pixels))
    ∧ (etcDiffColor2 pixels).2.1
        = expand5I ((etcDiffG1 pixels : Int) + specSignExt3 (etcDiffDG pixels))
    ∧ (etcDiffColor2 pixels).2.2
        = expand5I ((etcDiffB1 pixels : Int) + specSignExt3 (etcDiffDB pixels))
    ∧ (∀ v : Nat, (etcDiffR1 pixels : Int) + specSignExt3 (etcDiffDR pixels) = (v : Int) →
        v < 32 → (etcDiffColor2 pixels).1 = (specExpand5 v : Int)) := by
  have hr : etcDiffR1 pixels < 32 := Nat.lt_succ_of_le (Nat.and_le_right)
  have hg : etcDiffG1 pixels < 32 := Nat.lt_succ_of_le (Nat.and_le_right)
  have hb : etcDiffB1 pixels < 32 := Nat.lt_succ_of_le (Nat.and_le_right)
  have hdr : etcDiffDR pixels < 8 := Nat.lt_succ_of_le (Nat.and_le_right)
  have hdg : etcDiffDG pixels < 8 := Nat.lt_succ_of_le (Nat.and_le_right)
  have hdb : etcDiffDB pixels < 8 := Nat.lt_succ_of_le (Nat.and_le_right)
  refine ⟨?_, ?_, ?_, ?_, ?_⟩
  · unfold etcDiffColor1
    rw [expand5_eq_specExpand5 _ hr, expand5_eq_specExpand5 _ hg,
        expand5_eq_specExpand5 _ hb]
  · unfold etcDiffColor2
    rw [complement3_eq_specSignExt3 _ hdr]
  · unfold etcDiffColor2
    rw [complement3_eq_specSignExt3 _ hdg]
  · unfold etcDiffColor2
    rw [complement3_eq_specSignExt3 _ hdb]
  · intro v hv hv32
    unfold etcDiffColor2
    rw [complement3_eq_specSignExt3 _ hdr, hv, expand5I_eq_specExpand5 _ hv32]

/-- C7 witness: the theorem instantiated at the concrete color word
with first red code 16 and red delta 3 (block bits 59..63 = 10000,
bits 56..58 = 011): the second red base is 16 + 3 = 19 expanded. -/
theorem etc1_differential_bases_witness :
    (etcDiffColor2 ((16 <<< 59) + (3 <<< 56))).1 = (specExpand5 19 : Int) :=
  (etc1_differential_bases ((16 <<< 59) + (3 <<< 56))).2.2.2.2 19 (by decide) (by decide)

/-! Tile traversal (`Bffnt.visit_pixels`).  The nested loops run over
`tile_y < height/8`, `tile_x < width/8` and six inner 2-valued indices
`y x y2 x2 y3 x3`, and compute a logical pixel coordinate and a linear
storage position (in pixel-slot units; the byte offset is the slot times
`format_size/8`, which only the bounds guard uses). -/

/-- `data_x + data_y` from `visit_pixels`. -/
def dataPos (width tileX tileY x y x2 y2 x3 y3 : Nat) : Nat :=
  (x3 + x2 * 4 + x * 16 + tileX * 64) + (y3 * 2 + y2 * 8 + y * 32 + tileY * width * 8)

/-- `pixel_x` from `visit_pixels`. -/
def pixelX (tileX x x2 x3 : Nat) : Nat := x3 + x2 * 2 + x * 4 + tileX * 8

/-- `pixel_y` from `visit_pixels`. -/
def pixelY (tileY y y2 y3 : Nat) : Nat := y3 + y2 * 2 + y * 4 + tileY * 8

/-- The storage position assigned by `visit_pixels` to the logical pixel
`(px, py)`, obtained by feeding `dataPos` the unique loop indices that
produce `(px, py)` (the base-2 digits of `px % 8` and `py % 8` and the
tile coordinates `px / 8`, `py / 8`). -/
def swizzle (w px py : Nat) : Nat :=
  dataPos w (px / 8) (py / 8) (px / 4 % 2) (py / 4 % 2) (px / 2 % 2) (py / 2 % 2)
    (px % 2) (py % 2)

/-- Inverse of `swizzle`: recover `(px, py)` from a storage position. -/
def unswizzle (w o : Nat) : Nat × Nat :=
  let ty := o / (8 * w)
  let r := o % (8 * w)
  let tx := r / 64
  let m := r % 64
  (m % 2 + m / 4 % 2 * 2 + m / 16 % 2 * 4 + tx * 8,
   m / 2 % 2 + m / 8 % 2 * 2 + m / 32 % 2 * 4 + ty * 8)

/-- The in-tile part of the storage position: the bits of `a = px % 8`
and `b = py % 8` interleaved as in `dataPos`. -/
def mortonXY (a b : Nat) : Nat :=
  a % 2 + a / 2 % 2 * 4 + a / 4 % 2 * 16 + (b % 2 * 2 + b / 2 % 2 * 8 + b / 4 % 2 * 32)

/-- The loop indices of `visit_pixels` produce exactly the storage
position `swizzle` assigns to the pixel coordinate they produce. -/
theorem swizzle_eq_dataPos (w tileX tileY x y x2 y2 x3 y3 : Nat)
    (hx : x < 2) (hy : y < 2) (hx2 : x2 < 2) (hy2 : y2 < 2) (hx3 : x3 < 2) (hy3 : y3 < 2) :
    swizzle w (pixelX tileX x x2 x3) (pixelY tileY y y2 y3)
      = dataPos w tileX tileY x y x2 y2 x3 y3 := by
  have e1 : pixelX tileX x x2 x3 % 2 = x3 := by unfold pixelX; omega
  have e2 : pixelX tileX x x2 x3 / 2 % 2 = x2 := by unfold pixelX; omega
  have e3 : pixelX tileX x x2 x3 / 4 % 2 = x := by unfold pixelX; omega
  have e4 : pixelX tileX x x2 x3 / 8 = tileX := by unfold pixelX; omega
  have f1 : pixelY tileY y y2 y3 % 2 = y3 := by unfold pixelY; omega
  have f2 : pixelY tileY y y2 y3 / 2 % 2 = y2 := by unfold pixelY; omega
  have f3 : pixelY tileY y y2 y3 / 4 % 2 = y := by unfold pixelY; omega
  have f4 : pixelY tileY y y2 y3 / 8 = tileY := by unfold pixelY; omega
  unfold swizzle
  rw [e1, e2, e3, e4, f1, f2, f3, f4]

theorem swizzle_decomp (w px py : Nat) :
    swizzle w px py = mortonXY (px % 8) (py % 8) + 64 * (px / 8) + py / 8 * w * 8 := by
  unfold swizzle dataPos mortonXY
  have e1 : px % 2 = px % 8 % 2 := by omega
  have e2 : px / 2 % 2 = px % 8 / 2 % 2 := by omega
  have e3 : px / 4 % 2 = px % 8 / 4 % 2 := by omega
  have f1 : py % 2 = py % 8 % 2 := by omega
  have f2 : py / 2 % 2 = py % 8 / 2 % 2 := by omega
  have f3 : py / 4 % 2 = py % 8 / 4 % 2 := by omega
  rw [e1, e2, e3, f1, f2, f3]; ring

theorem morton_lt : ∀ a < 8, ∀ b < 8, mortonXY a b < 64 := by decide

theorem morton_left : ∀ a < 8, ∀ b < 8,
    mortonXY a b % 2 + mortonXY a b / 4 % 2 * 2 + mortonXY a b / 16 % 2 * 4 = a := by decide

theorem morton_right : ∀ a < 8, ∀ b < 8,
    mortonXY a b / 2 % 2 + mortonXY a b / 8 % 2 * 2 + mortonXY a b / 32 % 2 * 4 = b := by decide

theorem morton_surj : ∀ m < 64,
    mortonXY (m % 2 + m / 4 % 2 * 2 + m / 16 % 2 * 4)
      (m / 2 % 2 + m / 8 % 2 * 2 + m / 32 % 2 * 4) = m := by decide

theorem unswizzle_eval (W o : Nat) :
    unswizzle (8 * W) o
      = (o % (64 * W) % 64 % 2 + o % (64 * W) % 64 / 4 % 2 * 2
           + o % (64 * W) % 64 / 16 % 2 * 4 + o % (64 * W) / 64 * 8,
         o % (64 * W) % 64 / 2 % 2 + o % (64 * W) % 64 / 8 % 2 * 2
           + o % (64 * W) % 64 / 32 % 2 * 4 + o / (64 * W) * 8) := by
  have hK : 8 * (8 * W) = 64 * W := by ring
  simp only [unswizzle, hK]

theorem unswizzle_swizzle (w x y : Nat) (hw : w % 8 = 0) (hx : x < w) :
    unswizzle w (swizzle w x y) = (x, y) := by
  obtain ⟨W, rfl⟩ : ∃ W, w = 8 * W := ⟨w / 8, by omega⟩
  have ha8 : x % 8 < 8 := Nat.mod_lt _ (by norm_num)
  have hb8 : y % 8 < 8 := Nat.mod_lt _ (by norm_num)
  have hM := morton_lt (x % 8) ha8 (y % 8) hb8
  have htx : x / 8 < W := by omega
  have hre : swizzle (8 * W) x y
      = 64 * W * (y / 8) + (mortonXY (x % 8) (y % 8) + 64 * (x / 8)) := by
    rw [swizzle_decomp]; ring
  rw [hre, unswizzle_eval]
  have hc : mortonXY (x % 8) (y % 8) + 64 * (x / 8) < 64 * W := by omega
  have hpos : 0 < 64 * W := by omega
  have hmod : (64 * W * (y / 8) + (mortonXY (x % 8) (y % 8) + 64 * (x / 8))) % (64 * W)
      = mortonXY (x % 8) (y % 8) + 64 * (x / 8) := by
    rw [Nat.mul_add_mod, Nat.mod_eq_of_lt hc]
  have hdiv : (64 * W * (y / 8) + (mortonXY (x % 8) (y % 8) + 64 * (x / 8))) / (64 * W)
      = y / 8 := by
    rw [Nat.mul_add_div hpos, Nat.div_eq_of_lt hc]
    omega
  rw [hmod, hdiv]
  have hm64 : (mortonXY (x % 8) (y % 8) + 64 * (x / 8)) % 64 = mortonXY (x % 8) (y % 8) := by
    omega
  have hd64 : (mortonXY (x % 8) (y % 8) + 64 * (x / 8)) / 64 = x / 8 := by omega
  rw [hm64, hd64, morton_left (x % 8) ha8 (y % 8) hb8, morton_right (x % 8) ha8 (y % 8) hb8]
  refine Prod.ext ?_ ?_ <;> simp <;> omega

theorem swizzle_lt (w h x y : Nat) (hw : w % 8 = 0) (hh : h % 8 = 0)
    (hx : x < w) (hy : y < h) : swizzle w x y < w * h := by
  obtain ⟨W, rfl⟩ : ∃ W, w = 8 * W := ⟨w / 8, by omega⟩
  obtain ⟨H, rfl⟩ : ∃ H, h = 8 * H := ⟨h / 8, by omega⟩
  have ha8 : x % 8 < 8 := Nat.mod_lt _ (by norm_num)
  have hb8 : y % 8 < 8 := Nat.mod_lt _ (by norm_num)
  have hM := morton_lt (x % 8) ha8 (y % 8) hb8
  have htx : x / 8 < W := by omega
  have hty : y / 8 + 1 ≤ H := by omega
  have h1 : mortonXY (x % 8) (y % 8) + 64 * (x / 8) < 64 * W := by omega
  have h2 : 64 * W * (y / 8 + 1) ≤ 64 * W * H := Nat.mul_le_mul_left (64 * W) hty
  have h3 : 64 * W * (y / 8 + 1) = 64 * W * (y / 8) + 64 * W := by ring
  have h4 : swizzle (8 * W) x y
      = mortonXY (x % 8) (y % 8) + 64 * (x / 8) + 64 * W * (y / 8) := by
    rw [swizzle_decomp]; ring
  have h5 : (8 : Nat) * W * (8 * H) = 64 * W * H := by ring
  rw [h4, h5]
  linarith

theorem swizzle_unswizzle (w h o : Nat) (hw : w % 8 = 0) (hh : h % 8 = 0)
    (ho : o < w * h) :
    (unswizzle w o).1 < w ∧ (unswizzle w o).2 < h
      ∧ swizzle w (unswizzle w o).1 (unswizzle w o).2 = o := by
  obtain ⟨W, rfl⟩ : ∃ W, w = 8 * W := ⟨w / 8, by omega⟩
  obtain ⟨H, rfl⟩ : ∃ H, h = 8 * H := ⟨h / 8, by omega⟩
  have hwh : (8 : Nat) * W * (8 * H) = 64 * W * H := by ring
  rw [hwh] at ho
  have hpos : 0 < 64 * W * H := Nat.lt_of_le_of_lt (Nat.zero_le o) ho
  have hW : 0 < W := by
    rcases Nat.eq_zero_or_pos W with h0 | h; · rw [h0] at hpos; simp at hpos
    exact h
  have hH : 0 < H := by
    rcases Nat.eq_zero_or_pos H with h0 | h; · rw [h0] at hpos; simp at hpos
    exact h
  rw [unswizzle_eval]
  have hKpos : 0 < 64 * W := by omega
  have hrlt : o % (64 * W) < 64 * W := Nat.mod_lt o hKpos
  have hdm := Nat.div_add_mod o (64 * W)
  have hqH : o / (64 * W) < H := by
    rw [Nat.div_lt_iff_lt_mul hKpos]
    have : H * (64 * W) = 64 * W * H := by ring
    rw [this]; exact ho
  set r := o % (64 * W) with hr
  set q := o / (64 * W) with hq
  set m := r % 64 with hm
  set tx := r / 64 with htx
  have hm64 : m < 64 := by omega
  have htxW : tx < W := by omega
  have haa : m % 2 + m / 4 % 2 * 2 + m / 16 % 2 * 4 < 8 := by omega
  have hbb : m / 2 % 2 + m / 8 % 2 * 2 + m / 32 % 2 * 4 < 8 := by omega
  refine ⟨by simp only []; omega, by simp only []; omega, ?_⟩
  simp only []
  rw [swizzle_decomp]
  have hX8 : (m % 2 + m / 4 % 2 * 2 + m / 16 % 2 * 4 + tx * 8) % 8
      = m % 2 + m / 4 % 2 * 2 + m / 16 % 2 * 4 := by omega
  have hXd : (m % 2 + m / 4 % 2 * 2 + m / 16 % 2 * 4 + tx * 8) / 8 = tx := by omega
  have hY8 : (m / 2 % 2 + m / 8 % 2 * 2 + m / 32 % 2 * 4 + q * 8) % 8
      = m / 2 % 2 + m / 8 % 2 * 2 + m / 32 % 2 * 4 := by omega
  have hYd : (m / 2 % 2 + m / 8 % 2 * 2 + m / 32 % 2 * 4 + q * 8) / 8 = q := by omega
  rw [hX8, hXd, hY8, hYd, morton_surj m hm64]
  have hqq : q * (8 * W) * 8 = 64 * W * q := by ring
  rw [hqq]
  have hrm : 64 * tx + m = r := by omega
  linarith [hdm, hrm]

/-- C2: the tile-traversal addressing of `visit_pixels` is a bijection:
for a sheet whose width and height are multiples of 8, every logical
pixel coordinate `(x, y)` in bounds is assigned a storage slot below
`width * height` (so the byte offset `slot * format_size / 8` stays
inside the sheet's byte budget), the assignment is injective with
explicit inverse `unswizzle`, and every slot in `[0, width * height)`
is hit by exactly one in-bounds coordinate. -/
theorem visit_pixels_bijection (w h : Nat) (hw : w % 8 = 0) (hh : h % 8 = 0) :
    (∀ x y, x < w → y < h →
        swizzle w x y < w * h ∧ unswizzle w (swizzle w x y) = (x, y))
    ∧ (∀ o, o < w * h →
        (unswizzle w o).1 < w ∧ (unswizzle w o).2 < h
          ∧ swizzle w (unswizzle w o).1 (unswizzle w o).2 = o) := by
  refine ⟨fun x y hx hy => ⟨swizzle_lt w h x y hw hh hx hy, unswizzle_swizzle w x y hw hx⟩,
    fun o ho => swizzle_unswizzle w h o hw hh ho⟩

/-- C2 witness: on an 8-by-8 sheet, pixel (3, 5) maps to slot 39 and
back. -/
theorem visit_pixels_bijection_witness :
    swizzle 8 3 5 < 8 * 8 ∧ unswizzle 8 (swizzle 8 3 5) = (3, 5) :=
  (visit_pixels_bijection 8 8 rfl rfl).1 3 5 (by decide) (by decide)

/-! Section chains (`Bffnt.read`, `_parse_cwdh_header`,
`_parse_cmap_header`, `_parse_cwdh_data`) and the write-path padding of
`Bffnt.save`. -/

def CWDH_HEADER_MAGIC : List Nat := [0x43, 0x57, 0x44, 0x48]
def CMAP_HEADER_MAGIC : List Nat := [0x43, 0x4D, 0x41, 0x50]
def CWDH_HEADER_SIZE : Nat := 0x10
def CMAP_HEADER_SIZE : Nat := 0x14

/-- The raw fields of one on-disk CWDH header. -/
structure CwdhHeader where
  magic : List Nat
  size : Nat
  start_index : Nat
  end_index : Nat
  next_off : Nat
  deriving DecidableEq

/-- The record `_parse_cwdh_header` appends to `cwdh_sections`. -/
structure CwdhSectionRec where
  size : Nat
  start_index : Nat
  end_index : Nat
  deriving DecidableEq

/-- `Bffnt._parse_cwdh_header`: on a magic mismatch it sets the invalid
flag and returns None (and `read` then aborts); otherwise it appends the
section record and returns the header's next-offset. -/
def parse_cwdh_header (h : CwdhHeader) : Option (CwdhSectionRec × Nat) :=
  if h.magic = CWDH_HEADER_MAGIC then
    some (⟨h.size, h.start_index, h.end_index⟩, h.next_off)
  else none

inductive CwdhReadOutcome
  | ok (secs : List CwdhSectionRec)
  | invalid
  | outOfFuel
  deriving DecidableEq

/-- The CWDH loop of `Bffnt.read`: `while cwdh > 0`, parse the header at
byte position `cwdh - 8`, mark invalid and return when the parse fails,
else append the record and follow the returned next-offset.  `hdrs`
maps a byte position to the header found there.  The per-record payload
parse (`parse_cwdh_data` below) does not affect the loop's control
flow.  `fuel` bounds the number of iterations; the source loop has no
such bound. -/
def readCwdhChain (hdrs : Nat → CwdhHeader) (secs : List CwdhSectionRec)
    (offset fuel : Nat) : CwdhReadOutcome :=
  match fuel with
  | 0 => .outOfFuel
  | fuel + 1 =>
    if offset = 0 then .ok secs
    else
      match parse_cwdh_header (hdrs (offset - 8)) with
      | none => .invalid
      | some (sec, next_off) => readCwdhChain hdrs (secs ++ [sec]) next_off fuel

/-- The raw fields of one on-disk CMAP header. -/
structure CmapHeader where
  magic : List Nat
  size : Nat
  code_begin : Nat
  code_end : Nat
  method : Nat
  next_off : Nat
  deriving DecidableEq

/-- The record `_parse_cmap_header` appends to `cmap_sections`. -/
structure CmapSectionRec where
  size : Nat
  start_code : Nat
  end_code : Nat
  method : Nat
  deriving DecidableEq

/-- `Bffnt._parse_cmap_header`: when the magic mismatches, the source
only prints a diagnostic; it neither sets the invalid flag nor returns
early, so both branches append the section record and return the
next-offset. -/
def parse_cmap_header (h : CmapHeader) : CmapSectionRec × Nat :=
  if h.magic = CMAP_HEADER_MAGIC then
    (⟨h.size, h.code_begin, h.code_end, h.method⟩, h.next_off)
  else
    (⟨h.size, h.code_begin, h.code_end, h.method⟩, h.next_off)

theorem parse_cmap_header_eq (h : CmapHeader) :
    parse_cmap_header h = (⟨h.size, h.code_begin, h.code_end, h.method⟩, h.next_off) := by
  unfold parse_cmap_header; split <;> rfl

inductive CmapReadOutcome
  | ok (secs : List CmapSectionRec)
  | outOfFuel
  deriving DecidableEq

/-- The CMAP loop of `Bffnt.read`.  Its `if self.invalid: return` guard
can never fire because `_parse_cmap_header` never sets the flag, so the
loop either finishes the chain or runs forever. -/
def readCmapChain (hdrs : Nat → CmapHeader) (secs : List CmapSectionRec)
    (offset fuel : Nat) : CmapReadOutcome :=
  match fuel with
  | 0 => .outOfFuel
  | fuel + 1 =>
    if offset = 0 then .ok secs
    else
      let pr := parse_cmap_header (hdrs (offset - 8))
      readCmapChain hdrs (secs ++ [pr.1]) pr.2 fuel

/-- A CMAP chain whose first header carries the wrong magic tag XXXX at
position 8 (offset 16), followed by a well-formed header at position 40
(offset 48). -/
def badMagicCmapHdrs : Nat → CmapHeader := fun pos =>
  if pos = 8 then ⟨[0x58, 0x58, 0x58, 0x58], 0x16, 65, 65, 0, 48⟩
  else if pos = 40 then ⟨CMAP_HEADER_MAGIC, 0x16, 66, 66, 0, 0⟩
  else ⟨[0, 0, 0, 0], 0, 0, 0, 0, 0⟩

/-- C3: a magic-tag mismatch in a CMAP range header does NOT abort the
parse: `_parse_cmap_header` only prints a diagnostic, leaves the invalid
flag clear, appends the mismatched section and follows its next-offset,
so the chain walk completes with both sections parsed. -/
theorem cmap_magic_mismatch_not_fatal :
    readCmapChain badMagicCmapHdrs [] 16 10
      = .ok [⟨0x16, 65, 65, 0⟩, ⟨0x16, 66, 66, 0⟩] := by
  rfl

/-- A CWDH header at position 8 (offset 16) whose next-offset points
back at itself. -/
def selfRefCwdhHdrs : Nat → CwdhHeader := fun pos =>
  if pos = 8 then ⟨CWDH_HEADER_MAGIC, 0x1C, 0, 0, 16⟩
  else ⟨[0, 0, 0, 0], 0, 0, 0, 0⟩

/-- C4 counterexample: on a self-referential CWDH chain the parse step
succeeds and returns the same offset again, and the read loop is still
running after 30 iterations — no MalformedChain (or any other) error is
ever produced; the source loop has no detection and never terminates on
this input. -/
theorem cwdh_selfref_chain_loops :
    parse_cwdh_header (selfRefCwdhHdrs (16 - 8)) = some (⟨0x1C, 0, 0⟩, 16)
    ∧ readCwdhChain selfRefCwdhHdrs [] 16 30 = .outOfFuel := by
  exact ⟨rfl, rfl⟩

/-- C4 (amended): a nextOffset of 0 ends a CWDH chain after exactly the
current record, but a self-referential offset chain is NOT detected: the
CWDH and CMAP loops of `read` never terminate on such input (for every
iteration bound they are still running), and no MalformedChain error
exists in the code. -/
theorem cwdh_chain_termination_amended :
    (∀ (hdrs : Nat → CwdhHeader) (off fuel : Nat),
        off ≠ 0 → (hdrs (off - 8)).magic = CWDH_HEADER_MAGIC →
        (hdrs (off - 8)).next_off = 0 →
        readCwdhChain hdrs [] off (fuel + 2)
          = .ok [⟨(hdrs (off - 8)).size, (hdrs (off - 8)).start_index,
                  (hdrs (off - 8)).end_index⟩])
    ∧ (∀ (hdrs : Nat → CwdhHeader) (secs : List CwdhSectionRec) (off fuel : Nat),
        off ≠ 0 → (hdrs (off - 8)).magic = CWDH_HEADER_MAGIC →
        (hdrs (off - 8)).next_off = off →
        readCwdhChain hdrs secs off fuel = .outOfFuel)
    ∧ (∀ (hdrs : Nat → CmapHeader) (secs : List CmapSectionRec) (off fuel : Nat),
        off ≠ 0 → (hdrs (off - 8)).next_off = off →
        readCmapChain hdrs secs off fuel = .outOfFuel)
    ∧ (∀ (hdrs : Nat → CmapHeader) (off fuel : Nat),
        off ≠ 0 → (hdrs (off - 8)).next_off = 0 →
        readCmapChain hdrs [] off (fuel + 2)
          = .ok [⟨(hdrs (off - 8)).size, (hdrs (off - 8)).code_begin,
                  (hdrs (off - 8)).code_end, (hdrs (off - 8)).method⟩]) := by
  refine ⟨?_, ?_, ?_, ?_⟩
  · intro hdrs off fuel hoff hmagic hnext
    simp [readCwdhChain, hoff, parse_cwdh_header, hmagic, hnext]
  · intro hdrs secs off fuel hoff hmagic hnext
    induction fuel generalizing secs with
    | zero => rfl
    | succ n ih =>
      simp only [readCwdhChain, if_neg hoff, parse_cwdh_header, hmagic, if_pos, hnext]
      exact ih _
  · intro hdrs secs off fuel hoff hnext
    induction fuel generalizing secs with
    | zero => rfl
    | succ n ih =>
      simp only [readCmapChain, if_neg hoff, parse_cmap_header_eq, hnext]
      exact ih _
  · intro hdrs off fuel hoff hnext
    simp [readCmapChain, hoff, parse_cmap_header_eq, hnext]

/-- C4 witness: concrete one-record CWDH and CMAP chains terminate with
exactly their record, and the concrete self-referential chain is still
running at bound 7. -/
theorem cwdh_chain_termination_amended_witness :
    readCwdhChain (fun _ => ⟨CWDH_HEADER_MAGIC, 0x13, 2, 4, 0⟩) [] 16 5
      = .ok [⟨0x13, 2, 4⟩]
    ∧ readCwdhChain selfRefCwdhHdrs [] 16 7 = .outOfFuel
    ∧ readCmapChain (fun _ => ⟨CMAP_HEADER_MAGIC, 0x16, 65, 70, 0, 0⟩) [] 16 5
        = .ok [⟨0x16, 65, 70, 0⟩] :=
  ⟨(cwdh_chain_termination_amended.1 (fun _ => ⟨CWDH_HEADER_MAGIC, 0x13, 2, 4, 0⟩)
      16 3 (by decide) rfl rfl),
   (cwdh_chain_termination_amended.2.1 selfRefCwdhHdrs [] 16 7 (by decide) rfl rfl),
   (cwdh_chain_termination_amended.2.2.2 (fun _ => ⟨CMAP_HEADER_MAGIC, 0x16, 65, 70, 0, 0⟩)
      16 3 (by decide) rfl)⟩

/-- A well-formed single-record CWDH chain at offset 16. -/
def oneCwdhHdrs : Nat → CwdhHeader := fun pos =>
  if pos = 8 then ⟨CWDH_HEADER_MAGIC, 0x13, 0, 0, 0⟩
  else ⟨[0, 0, 0, 0], 0, 0, 0, 0⟩

/-- The section list a finished chain walk leaves in `cwdh_sections`. -/
def sectionsOf : CwdhReadOutcome → List CwdhSectionRec
  | .ok secs => secs
  | _ => []

/-- C10: `cwdh_sections` is a class attribute of `Bffnt`, mutated by
`append` and never rebound by `read`, so it is shared across instances:
a first instance's read of a one-section container yields one record,
and a second, separately constructed instance reading the same bytes
starts from the first instance's list and ends with two records instead
of one — the second run's result depends on the first. -/
theorem cwdh_sections_shared_across_instances :
    readCwdhChain oneCwdhHdrs [] 16 5 = .ok [⟨0x13, 0, 0⟩]
    ∧ readCwdhChain oneCwdhHdrs (sectionsOf (readCwdhChain oneCwdhHdrs [] 16 5)) 16 5
        = .ok [⟨0x13, 0, 0⟩, ⟨0x13, 0, 0⟩]
    ∧ ([⟨0x13, 0, 0⟩, ⟨0x13, 0, 0⟩] : List CwdhSectionRec) ≠ [⟨0x13, 0, 0⟩] := by
  exact ⟨rfl, rfl, by decide⟩

/-- Write-path position accounting for one CWDH section in `Bffnt.save`:
a 0x10-byte header, one 3-byte triple per index in `[start, end]`, then
`padding = position % 4` zero bytes added to `position`. -/
def cwdhSectionEnd (position start_index end_index : Nat) : Nat :=
  let p := position + CWDH_HEADER_SIZE + 3 * (end_index + 1 - start_index)
  p + p % 4

/-- The size written back into the section's header: the post-padding
position minus the section's start position (so the padding bytes are
counted in the section size). -/
def cwdhSectionSize (position start_index end_index : Nat) : Nat :=
  cwdhSectionEnd position start_index end_index - position

/-- C6: the write-path padding does not align to 4.  A CWDH section
written at the 4-aligned position 8192 covering the single index
interval [0, 0] ends its payload at 8211 (remainder 3 mod 4); the code
adds `position % 4 = 3` zero bytes, landing at 8214, which is NOT a
multiple of 4 (the next-boundary padding would be 1 byte).  The padding
bytes are counted in the section size (22), as claimed. -/
theorem cwdh_padding_misaligned :
    cwdhSectionEnd 8192 0 0 = 8214
    ∧ cwdhSectionEnd 8192 0 0 % 4 = 2
    ∧ cwdhSectionEnd 8192 0 0 % 4 ≠ 0
    ∧ cwdhSectionSize 8192 0 0 = 22 := by
  exact ⟨rfl, rfl, by decide, rfl⟩

/-- C8: the L4 encode branch of `_get_tglp_pixel_data` shifts the raw
luma byte without reducing it to a 4-bit nibble (the A4 branch divides
by 0x11 and masks; the L4 decode multiplies the stored nibble by 0x11),
so its output is not confined to the nibble selected by the pixel
index's parity.  With the source's float luma, pixel (0, 255, 0) has
luma int(255 * 0.7152) = 182; encoding it at even index yields the full
byte 182, whose high nibble (11) overlaps the odd neighbor's position:
OR-ing the odd neighbor's encoded nibble 1 <<< 4 = 16 into the shared
byte leaves 182, and decoding the neighbor returns 11 * 0x11 = 187
instead of 1 * 0x11 = 17. -/
theorem l4_encode_not_nibble (luma : Nat → Nat → Nat → Nat)
    (hl : luma 0 255 0 = 182) :
    get_tglp_pixel_data luma [(0, 255, 0, 255), (17, 17, 17, 255)] 0 .L4 = [182]
    ∧ (182 : Nat) >>> 4 ≠ 0
    ∧ ((0 ||| 182) ||| (1 <<< 4) : Nat) = 182
    ∧ get_pixel_data .L4 [182] 1 = (187, 187, 187, 255)
    ∧ (187 : Nat) ≠ 1 * 0x11 := by
  refine ⟨?_, by decide, by decide, by decide, by decide⟩
  show [luma 0 255 0 <<< ((0 &&& 1) * 4)] = [182]
  rw [hl]
  decide

/-- C8 witness: the theorem applied to a luma function matching the
source's value on the failing pixel. -/
theorem l4_encode_not_nibble_witness :
    get_tglp_pixel_data (fun _ _ _ => 182) [(0, 255, 0, 255), (17, 17, 17, 255)] 0 .L4
      = [182]
    ∧ (182 : Nat) >>> 4 ≠ 0
    ∧ ((0 ||| 182) ||| (1 <<< 4) : Nat) = 182
    ∧ get_pixel_data .L4 [182] 1 = (187, 187, 187, 255)
    ∧ (187 : Nat) ≠ 1 * 0x11 :=
  l4_encode_not_nibble (fun _ _ _ => 182) rfl

/-- The triple record `_parse_cwdh_data` builds per covered index. -/
structure CwdhSectionData where
  left : Int
  glyph : Nat
  char : Nat
  deriving DecidableEq

/-- A byte read through struct code `b`: signed value in [-128, 127]. -/
def toSigned (b : Nat) : Int := if b < 128 then (b : Int) else (b : Int) - 256

/-- `Bffnt._parse_cwdh_data`: reads `end - start + 1` consecutive 3-byte
triples with struct format `'b2B'` — `left` signed, `glyph` and `char`
unsigned. -/
def parse_cwdh_data (start_index end_index : Nat) (data : List Nat) :
    List CwdhSectionData :=
  let count := ((end_index : Int) - (start_index : Int) + 1).toNat
  (List.range count).map fun i =>
    ⟨toSigned (byte data (3 * i)), byte data (3 * i + 1), byte data (3 * i + 2)⟩

/-- C9 counterexample: the payload bytes FF FF FF for the one-index
interval [0, 0] parse to left = -1 (signed) but glyphWidth = 255 and
charWidth = 255 — the latter two are read unsigned, outside the claimed
signed range [-128, 127]. -/
theorem cwdh_triple_unsigned_widths :
    parse_cwdh_data 0 0 [255, 255, 255] = [⟨-1, 255, 255⟩]
    ∧ ¬ ((255 : Int) ≤ 127)
    ∧ toSigned 255 = -1 := by
  refine ⟨by decide, by decide, by decide⟩

/-- C9 (amended): parsing a WidthRange payload over [start, end] reads
exactly end - start + 1 triples; the `left` component is a signed byte
in [-128, 127] while `glyphWidth` and `charWidth` are unsigned bytes in
[0, 255]. -/
theorem parse_cwdh_data_layout (start_index end_index : Nat) (data : List Nat)
    (hbytes : ∀ b ∈ data, b < 256) (hse : start_index ≤ end_index) :
    (parse_cwdh_data start_index end_index data).length = end_index - start_index + 1
    ∧ ∀ t ∈ parse_cwdh_data start_index end_index data,
        -128 ≤ t.left ∧ t.left ≤ 127 ∧ t.glyph ≤ 255 ∧ t.char ≤ 255 := by
  have hbyte : ∀ i, byte data i < 256 := by
    intro i
    by_cases hi : i < data.length
    · have he : data.getD i 0 = data[i] := List.getD_eq_getElem data 0 hi
      unfold byte
      rw [he]
      exact hbytes _ (List.getElem_mem hi)
    · unfold byte
      rw [List.getD_eq_default _ _ (le_of_not_lt hi)]
      omega
  constructor
  · unfold parse_cwdh_data
    simp only [List.length_map, List.length_range]
    omega
  · intro t ht
    unfold parse_cwdh_data at ht
    simp only [List.mem_map, List.mem_range] at ht
    obtain ⟨i, _, rfl⟩ := ht
    have h0 := hbyte (3 * i)
    have h1 := hbyte (3 * i + 1)
    have h2 := hbyte (3 * i + 2)
    refine ⟨?_, ?_, ?_, ?_⟩
    · show -128 ≤ toSigned (byte data (3 * i))
      unfold toSigned; split <;> omega
    · show toSigned (byte data (3 * i)) ≤ 127
      unfold toSigned; split <;> omega
    · show byte data (3 * i + 1) ≤ 255
      omega
    · show byte data (3 * i + 2) ≤ 255
      omega

/-- C9 witness: the layout theorem at a concrete one-index payload. -/
theorem parse_cwdh_data_layout_witness :
    (parse_cwdh_data 0 0 [1, 2, 3]).length = 0 - 0 + 1 :=
  (parse_cwdh_data_layout 0 0 [1, 2, 3] (by decide) (by decide)).1

end Bffnt
